import Mathlib

/-!
# MPU6050 motion-event pipeline (`main/main.c`)

Shallow embedding of the two FreeRTOS tasks of `main.c`:

* `mpu6050_task` : one iteration of the acquisition loop (scaling of the raw
  acceleration, magnitude test against `threshold`, the `xQueueSend` calls);
* `uart_task`    : one iteration of the transmission loop (`xQueueReceive`,
  the four bytes written with `uart_write_blocking`).

C `float` values are represented by the rational number they denote; every
single-precision operation is the exact rational operation followed by
rounding to binary32 (round to nearest, ties to even).  All magnitudes that
occur in the program are below 13, so overflow to infinity is not modelled.
C `int` values are mathematical integers; wrap-around is written explicitly.
-/

namespace Mpu

/-! ## Single-precision arithmetic -/

/-- Round a rational to the nearest integer, ties to the even neighbour. -/
def roundNE (t : ℚ) : ℤ :=
  let f := ⌊t⌋
  let r := t - f
  if r < 1 / 2 then f
  else if 1 / 2 < r then f + 1
  else if f % 2 = 0 then f else f + 1

/-- Rounding of an exact result to binary32: 24 significant bits, exponent of
the leading bit not below `-126` (below that the spacing stays `2 ^ (-149)`). -/
def round32 (q : ℚ) : ℚ :=
  if q = 0 then 0
  else
    let e := max (Int.log 2 |q|) (-126)
    let u := (2 : ℚ) ^ (e - 23)
    (roundNE (q / u) : ℚ) * u

/-- Single-precision addition `a + b`. -/
def fadd (a b : ℚ) : ℚ := round32 (a + b)

/-- Single-precision multiplication `a * b`. -/
def fmul (a b : ℚ) : ℚ := round32 (a * b)

/-- Single-precision division `a / b`. -/
def fdiv (a b : ℚ) : ℚ := round32 (a / b)

/-- Conversion of an integer to `float` (the usual arithmetic conversion applied
to the `int16_t` operand of `acceleration[i] / 16384.0f`). -/
def int_to_float (i : ℤ) : ℚ := round32 i

/-- Conversion of a `float` to `int` (`.val = pitch`): the fractional part is
discarded, i.e. truncation toward zero. -/
def float_to_int (x : ℚ) : ℤ := Int.tdiv x.num x.den

/-- Correctly rounded single-precision square root (`sqrtf`) of a non-negative
argument: with `u` the spacing of the binade of the result, `k = ⌊√(q / u²)⌋`
is the 24-bit significand rounded down and the comparison with `(k + 1/2)²`
selects the nearest neighbour.  Arguments `q ≤ 0` give `0`; the program only
passes a rounded sum of squares. -/
def sqrtf (q : ℚ) : ℚ :=
  if q ≤ 0 then 0
  else
    let h := Int.log 2 q / 2
    let u := (2 : ℚ) ^ (h - 23)
    let r := q / (u * u)
    let k := Nat.sqrt ⌊r⌋₊
    let m : ℕ :=
      if r < (k : ℚ) * k + k + 1 / 4 then k
      else if (k : ℚ) * k + k + 1 / 4 < r then k + 1
      else if k % 2 = 0 then k else k + 1
    (m : ℚ) * u

/-! ## Integer operations of `uart_task` -/

/-- Conversion `(uint8_t) v`: reduction modulo `2 ^ 8`. -/
def to_uint8 (v : ℤ) : ℕ := (v % 256).toNat

/-- Reinterpretation of a 32-bit pattern as a signed `int`. -/
def wrap_int (v : ℤ) : ℤ := (v + 2147483648) % 4294967296 - 2147483648

/-- Right shift `v >> n` of a signed `int` (arithmetic shift). -/
def int_shr (v : ℤ) (n : ℕ) : ℤ := v >>> n

/-- Bitwise `a & b` of two `int`s, computed on their 32-bit two's-complement
patterns. -/
def int_and (a b : ℤ) : ℤ :=
  wrap_int (((a % 4294967296).toNat &&& (b % 4294967296).toNat : ℕ) : ℤ)

/-! ## Data -/

/-- The queue item `adc_t`. -/
structure adc_t where
  axis : ℤ
  val : ℤ
deriving DecidableEq, Repr

/-- Range of an `int16_t`. -/
def isInt16 (v : ℤ) : Prop := -32768 ≤ v ∧ v ≤ 32767

instance (v : ℤ) : Decidable (isInt16 v) := by
  unfold isInt16
  exact inferInstance

/-- The raw sample `int16_t acceleration[3]` filled by `mpu6050_read_raw`. -/
structure RawAccel where
  a0 : ℤ
  a1 : ℤ
  a2 : ℤ
deriving DecidableEq, Repr

/-- All three components are `int16_t` values. -/
def RawAccel.wf (r : RawAccel) : Prop := isInt16 r.a0 ∧ isInt16 r.a1 ∧ isInt16 r.a2

/-- The `FusionVector` of three `float`s. -/
structure FusionVector where
  x : ℚ
  y : ℚ
  z : ℚ
deriving DecidableEq, Repr

/-- The part of `FusionEuler` that the task reads: `euler.angle.pitch` and
`euler.angle.roll`, in degrees.  The value is produced by the Fusion library
(`FusionAhrsUpdateNoMagnetometer`, `FusionQuaternionToEuler`), which is not part
of `main.c`; it enters an iteration as an input. -/
structure FusionEuler where
  pitch : ℚ
  roll : ℚ
deriving DecidableEq, Repr

/-! ## `uart_task` -/

/-- The four bytes `bytes[0..3]` built by `uart_task` for a received item. -/
def uart_bytes (data : adc_t) : List ℕ :=
  [ to_uint8 data.axis,
    to_uint8 (int_shr data.val 8) &&& 0xFF,
    to_uint8 (int_and data.val 0xFF),
    0xFF ]

/-! ## `mpu6050_task`: scaling and magnitude -/

/-- The constant `threshold = 1.5f`. -/
def threshold : ℚ := 3 / 2

/-- The vector `accelerometer`: each raw count divided by `16384.0f`. -/
def accelerometer (acceleration : RawAccel) : FusionVector :=
  { x := fdiv (int_to_float acceleration.a0) 16384
    y := fdiv (int_to_float acceleration.a1) 16384
    z := fdiv (int_to_float acceleration.a2) 16384 }

/-- The value `accel_magnitude = sqrtf(x*x + y*y + z*z)`. -/
def accel_magnitude (v : FusionVector) : ℚ :=
  sqrtf (fadd (fadd (fmul v.x v.x) (fmul v.y v.y)) (fmul v.z v.z))


/-- The test `accel_magnitude > threshold` of the loop body, on the raw sample. -/
def click_detected (acceleration : RawAccel) : Bool :=
  decide (threshold < accel_magnitude (accelerometer acceleration))

/-! ## The event queue `xQueueData` -/

/-- Modelled from the spec: the FreeRTOS queue object behind `QueueHandle_t`
(the FreeRTOS kernel is not part of `main.c`).  A bounded FIFO: its fixed
capacity and the items waiting in it, oldest first. -/
structure Queue where
  capacity : ℕ
  items : List adc_t
deriving DecidableEq, Repr

/-- Modelled from the spec: `xQueueCreate(uxQueueLength, sizeof(adc_t))`, absent
from `main.c`; an empty channel of the given capacity. -/
def xQueueCreate (uxQueueLength : ℕ) : Queue :=
  { capacity := uxQueueLength, items := [] }

/-- Modelled from the spec: `xQueueSend(q, &item, 0)`, absent from `main.c`.
With a zero timeout the call never waits: with free capacity the item is
appended and the call reports success, on a full channel the item is
discarded and the call reports failure. -/
def xQueueSend (q : Queue) (item : adc_t) : Bool × Queue :=
  if q.items.length < q.capacity then (true, { q with items := q.items ++ [item] })
  else (false, q)

/-- Modelled from the spec: `xQueueReceive(q, &data, portMAX_DELAY)`, absent
from `main.c`.  The oldest item is removed and returned; `none` stands for the
caller staying blocked on an empty channel. -/
def xQueueReceive (q : Queue) : Option (adc_t × Queue) :=
  match q.items with
  | [] => none
  | data :: rest => some (data, { q with items := rest })

/-- The queue as created in `main`: `xQueueData = xQueueCreate(2, sizeof(adc_t))`. -/
def xQueueData : Queue := xQueueCreate 2

/-! ## One iteration of each task -/

/-- One iteration of the `while(1)` loop of `mpu6050_task`, from the raw sample
just read and the Euler angles just computed, acting on the queue.  The result
is the queue after the iteration together with, in program order, every item
handed to `xQueueSend` and the value that call returned. -/
def mpu6050_task (acceleration : RawAccel) (euler : FusionEuler) (q : Queue) :
    Queue × List (adc_t × Bool) :=
  let pitch := euler.pitch
  let roll := euler.roll
  let x_data : adc_t := { axis := 0, val := float_to_int pitch }
  let y_data : adc_t := { axis := 1, val := float_to_int roll }
  let magnitude := accel_magnitude (accelerometer acceleration)
  if threshold < magnitude then
    let click_data : adc_t := { axis := 2, val := 1 }
    let r := xQueueSend q click_data
    (r.2, [(click_data, r.1)])
  else
    let r1 := xQueueSend q x_data
    let r2 := xQueueSend r1.2 y_data
    (r2.2, [(x_data, r1.1), (y_data, r2.1)])

/-- The items one iteration of `mpu6050_task` hands to `xQueueSend`, in order. -/
def mpu6050_offers (acceleration : RawAccel) (euler : FusionEuler) (q : Queue) : List adc_t :=
  (mpu6050_task acceleration euler q).2.map Prod.fst

/-- One iteration of the `while(1)` loop of `uart_task` on the queue and the
bytes written to `uart0` so far; `none` while the task is blocked in
`xQueueReceive`. -/
def uart_task (q : Queue) (uart0 : List ℕ) : Option (Queue × List ℕ) :=
  match xQueueReceive q with
  | none => none
  | some (data, q1) => some (q1, uart0 ++ uart_bytes data)

/-! ## The two tasks running together -/

/-- State shared by the two tasks: the queue, the byte stream written to
`uart0`, and a history variable listing the items for which `xQueueSend`
returned success, oldest first. -/
structure Sys where
  queue : Queue
  uart0 : List ℕ
  accepted : List adc_t
deriving DecidableEq, Repr

/-- An atomic action of the running system: one `xQueueSend` issued by
`mpu6050_task`, or one iteration of `uart_task`. -/
inductive Action where
  | send (item : adc_t)
  | receive
deriving DecidableEq, Repr

/-- Effect of one action; `uart_task` on an empty queue stays blocked. -/
def Sys.step (s : Sys) : Action → Sys
  | Action.send item =>
    let r := xQueueSend s.queue item
    { s with queue := r.2, accepted := if r.1 then s.accepted ++ [item] else s.accepted }
  | Action.receive =>
    match uart_task s.queue s.uart0 with
    | none => s
    | some (q1, out) => { s with queue := q1, uart0 := out }

/-- Effect of a schedule of actions. -/
def Sys.run (s : Sys) (acts : List Action) : Sys := acts.foldl Sys.step s

/-- The system right after `main` created the queue. -/
def Sys.init : Sys := { queue := xQueueData, uart0 := [], accepted := [] }

/-- Decoding, on the receiving side, of two bytes as a big-endian signed 16-bit
integer. -/
def decode_be16 (hi lo : ℕ) : ℤ :=
  let u : ℤ := (hi : ℤ) * 256 + lo
  if 32768 ≤ u then u - 65536 else u

/-- Sum of the squared raw counts, `2 ^ 28` times the squared norm in g. -/
def RawAccel.normSq (r : RawAccel) : ℤ := r.a0 * r.a0 + r.a1 * r.a1 + r.a2 * r.a2

/-- Exact squared Euclidean norm, in g², of the raw vector divided by 16384
(no rounding).  The norm exceeds `1.5` exactly when this exceeds `(3 / 2) ^ 2`. -/
def RawAccel.normSqG (r : RawAccel) : ℚ :=
  ((r.a0 : ℚ) / 16384) ^ 2 + ((r.a1 : ℚ) / 16384) ^ 2 + ((r.a2 : ℚ) / 16384) ^ 2

/-! ## Lemmas on the arithmetic -/

theorem roundNE_err (t : ℚ) : |((roundNE t : ℤ) : ℚ) - t| ≤ 1 / 2 := by
  have h0 := Int.floor_le t
  have h1 := Int.lt_floor_add_one t
  unfold roundNE
  simp only
  split_ifs with h2 h3 h4 <;> rw [abs_le] <;> constructor <;> push_cast <;> linarith

theorem roundNE_intCast (n : ℤ) : roundNE (n : ℚ) = n := by
  unfold roundNE
  simp

theorem two_zpow_pos (e : ℤ) : (0 : ℚ) < (2 : ℚ) ^ e := zpow_pos (by norm_num) e

theorem log2_le (q : ℚ) (hq : 0 < q) : (2 : ℚ) ^ Int.log 2 q ≤ q := by
  have h := Int.zpow_log_le_self (b := 2) (r := q) (by norm_num) hq
  simpa using h

theorem lt_log2 (q : ℚ) : q < (2 : ℚ) ^ (Int.log 2 q + 1) := by
  have h := Int.lt_zpow_succ_log_self (b := 2) (by norm_num) q
  simpa using h

theorem le_log2 (q : ℚ) (hq : 0 < q) (e : ℤ) (h : (2 : ℚ) ^ e ≤ q) : e ≤ Int.log 2 q := by
  have h2 := (Int.zpow_le_iff_le_log (b := 2) (by norm_num) (x := e) hq).1 (by simpa using h)
  exact h2

theorem log2_lt (q : ℚ) (hq : 0 < q) (e : ℤ) (h : q < (2 : ℚ) ^ e) : Int.log 2 q < e := by
  have h2 := (Int.lt_zpow_iff_log_lt (b := 2) (by norm_num) (x := e) hq).1 (by simpa using h)
  exact h2

theorem round32_zero : round32 0 = 0 := by
  simp [round32]

theorem round32_rel (q : ℚ) (hq : (2 : ℚ) ^ (-126 : ℤ) ≤ |q|) :
    |round32 q - q| ≤ |q| / 2 ^ 24 := by
  have hpos : 0 < |q| := lt_of_lt_of_le (two_zpow_pos _) hq
  have hne : q ≠ 0 := abs_pos.1 hpos
  have he : (-126 : ℤ) ≤ Int.log 2 |q| := le_log2 _ hpos _ hq
  have hlo := log2_le _ hpos
  unfold round32
  rw [if_neg hne]
  simp only [max_eq_left he]
  generalize Int.log 2 |q| = e at hlo
  have hu : (0 : ℚ) < 2 ^ (e - 23) := two_zpow_pos _
  have herr := roundNE_err (q / 2 ^ (e - 23))
  have h1 : (roundNE (q / 2 ^ (e - 23)) : ℚ) * 2 ^ (e - 23) - q
      = ((roundNE (q / 2 ^ (e - 23)) : ℚ) - q / 2 ^ (e - 23)) * 2 ^ (e - 23) := by
    field_simp
  rw [h1, abs_mul, abs_of_pos hu]
  have h2 : (2 : ℚ) ^ (e - 23) = 2 ^ e / 2 ^ 23 := by
    rw [zpow_sub₀ (by norm_num)]
    norm_num
  calc |(roundNE (q / 2 ^ (e - 23)) : ℚ) - q / 2 ^ (e - 23)| * 2 ^ (e - 23)
      ≤ 1 / 2 * 2 ^ (e - 23) := mul_le_mul_of_nonneg_right herr hu.le
    _ = 2 ^ e / 2 ^ 24 := by rw [h2]; ring
    _ ≤ |q| / 2 ^ 24 := div_le_div_of_nonneg_right hlo (by norm_num)

theorem round32_exact (m e : ℤ) (hm : |m| < 2 ^ 24) (he : -149 ≤ e) :
    round32 ((m : ℚ) * 2 ^ e) = (m : ℚ) * 2 ^ e := by
  by_cases hm0 : m = 0
  · subst hm0
    simp [round32]
  have hmq : (m : ℚ) ≠ 0 := by exact_mod_cast hm0
  have hq : (m : ℚ) * 2 ^ e ≠ 0 := mul_ne_zero hmq (two_zpow_pos e).ne'
  have hpos : 0 < |(m : ℚ) * 2 ^ e| := abs_pos.2 hq
  have hlog : Int.log 2 |(m : ℚ) * 2 ^ e| < 24 + e := by
    apply log2_lt _ hpos
    rw [abs_mul, abs_of_pos (two_zpow_pos e), zpow_add₀ (by norm_num)]
    have h3 : |(m : ℚ)| < 2 ^ 24 := by exact_mod_cast hm
    have h4 : ((2 : ℚ) ^ (24 : ℤ)) = 2 ^ 24 := by norm_num
    rw [h4]
    exact mul_lt_mul_of_pos_right h3 (two_zpow_pos e)
  unfold round32
  rw [if_neg hq]
  simp only
  generalize Int.log 2 |(m : ℚ) * 2 ^ e| = l at hlog
  have hE : max l (-126) - 23 ≤ e := by
    rcases max_cases l (-126) with ⟨h, _⟩ | ⟨h, _⟩ <;> rw [h] <;> omega
  generalize max l (-126) - 23 = d at hE
  obtain ⟨k, hk⟩ : ∃ k : ℕ, e = d + k := ⟨(e - d).toNat, by omega⟩
  have h5 : (m : ℚ) * 2 ^ e / 2 ^ d = ((m * 2 ^ k : ℤ) : ℚ) := by
    rw [hk, zpow_add₀ (by norm_num), zpow_natCast]
    push_cast
    field_simp
    ring
  rw [h5, roundNE_intCast, hk, zpow_add₀ (by norm_num), zpow_natCast]
  push_cast
  ring

theorem sqrtf_zero : sqrtf 0 = 0 := by
  simp [sqrtf]

theorem sqrtf_bracket (q : ℚ) (hq : 0 < q) :
    0 < sqrtf q ∧ (sqrtf q * (1 - 1 / 2 ^ 24)) ^ 2 ≤ q ∧ q ≤ (sqrtf q * (1 + 1 / 2 ^ 24)) ^ 2 := by
  unfold sqrtf
  rw [if_neg (not_le.2 hq)]
  simp only
  have hlo := log2_le q hq
  generalize Int.log 2 q = e at hlo
  have he2 : 2 * (e / 2) ≤ e := by omega
  generalize e / 2 = h at he2
  have hupos : (0 : ℚ) < 2 ^ (h - 23) := two_zpow_pos _
  have huu : (2 : ℚ) ^ 46 * ((2 : ℚ) ^ (h - 23) * 2 ^ (h - 23)) = 2 ^ (2 * h) := by
    rw [← zpow_add₀ (by norm_num)]
    have h46 : ((2 : ℚ) ^ 46) = (2 : ℚ) ^ (46 : ℤ) := by norm_num
    rw [h46, ← zpow_add₀ (by norm_num)]
    congr 1
    ring
  have h2h : (2 : ℚ) ^ (2 * h) ≤ q :=
    le_trans (zpow_le_zpow_right₀ (by norm_num) he2) hlo
  generalize (2 : ℚ) ^ (h - 23) = u at hupos huu
  have huupos : 0 < u * u := mul_pos hupos hupos
  have hqr : q = q / (u * u) * (u * u) := by field_simp
  have hr46 : (2 : ℚ) ^ 46 ≤ q / (u * u) := by
    rw [le_div_iff₀ huupos, huu]
    exact h2h
  generalize q / (u * u) = r at hqr hr46
  have hrpos : 0 ≤ r := le_trans (by norm_num) hr46
  have hfl : ((⌊r⌋₊ : ℕ) : ℚ) ≤ r := Nat.floor_le hrpos
  have hfl2 : r < ⌊r⌋₊ + 1 := Nat.lt_floor_add_one r
  have hk1 : Nat.sqrt ⌊r⌋₊ * Nat.sqrt ⌊r⌋₊ ≤ ⌊r⌋₊ := Nat.sqrt_le _
  have hk2 : ⌊r⌋₊ < (Nat.sqrt ⌊r⌋₊ + 1) * (Nat.sqrt ⌊r⌋₊ + 1) := Nat.lt_succ_sqrt _
  have hk23 : 2 ^ 23 ≤ Nat.sqrt ⌊r⌋₊ := by
    apply Nat.le_sqrt.2
    apply Nat.le_floor
    push_cast
    norm_num at hr46 ⊢
    exact hr46
  generalize Nat.sqrt ⌊r⌋₊ = k at hk1 hk2 hk23
  have hkq1 : (k : ℚ) * k ≤ r := le_trans (by exact_mod_cast hk1) hfl
  have hkq2 : r < ((k : ℚ) + 1) * (k + 1) := by
    have h7 : ((⌊r⌋₊ : ℕ) : ℚ) + 1 ≤ ((k : ℚ) + 1) * (k + 1) := by exact_mod_cast hk2
    linarith
  have hkq23 : (2 : ℚ) ^ 23 ≤ k := by exact_mod_cast hk23
  have key : ∀ m : ℕ, ((m : ℚ) = k ∧ r ≤ (k : ℚ) * k + k + 1 / 4) ∨
      ((m : ℚ) = k + 1 ∧ (k : ℚ) * k + k + 1 / 4 ≤ r) →
      0 < (m : ℚ) * u ∧ ((m : ℚ) * u * (1 - 1 / 2 ^ 24)) ^ 2 ≤ q ∧
        q ≤ ((m : ℚ) * u * (1 + 1 / 2 ^ 24)) ^ 2 := by
    intro m hm
    have hm23 : (2 : ℚ) ^ 23 ≤ m := by
      rcases hm with ⟨h, _⟩ | ⟨h, _⟩ <;> rw [h] <;> linarith
    have hlow : ((m : ℚ) - 1 / 2) ^ 2 ≤ r := by
      rcases hm with ⟨h, _⟩ | ⟨h, h'⟩ <;> rw [h] <;> nlinarith
    have hupp : r ≤ ((m : ℚ) + 1 / 2) ^ 2 := by
      rcases hm with ⟨h, h'⟩ | ⟨h, _⟩ <;> rw [h] <;> nlinarith
    have hmpos : (0 : ℚ) < m := lt_of_lt_of_le (by norm_num) hm23
    have hm23' : (8388608 : ℚ) ≤ m := by
      norm_num at hm23
      exact_mod_cast hm23
    have ha : (m : ℚ) * (1 - 1 / 2 ^ 24) ≤ m - 1 / 2 := by
      norm_num
      linarith
    have ha0 : 0 ≤ (m : ℚ) * (1 - 1 / 2 ^ 24) := by
      apply mul_nonneg hmpos.le
      norm_num
    have hb : (m : ℚ) + 1 / 2 ≤ m * (1 + 1 / 2 ^ 24) := by
      norm_num
      linarith
    have hb0 : 0 ≤ (m : ℚ) + 1 / 2 := by linarith
    refine ⟨mul_pos hmpos hupos, ?_, ?_⟩
    · have h8 : ((m : ℚ) * (1 - 1 / 2 ^ 24)) ^ 2 ≤ r :=
        le_trans (pow_le_pow_left₀ ha0 ha 2) hlow
      have h9 : ((m : ℚ) * u * (1 - 1 / 2 ^ 24)) ^ 2
          = ((m : ℚ) * (1 - 1 / 2 ^ 24)) ^ 2 * (u * u) := by ring
      rw [h9, hqr]
      exact mul_le_mul_of_nonneg_right h8 huupos.le
    · have h8 : r ≤ ((m : ℚ) * (1 + 1 / 2 ^ 24)) ^ 2 :=
        le_trans hupp (pow_le_pow_left₀ hb0 hb 2)
      have h9 : ((m : ℚ) * u * (1 + 1 / 2 ^ 24)) ^ 2
          = ((m : ℚ) * (1 + 1 / 2 ^ 24)) ^ 2 * (u * u) := by ring
      rw [h9]
      calc q = r * (u * u) := hqr
        _ ≤ ((m : ℚ) * (1 + 1 / 2 ^ 24)) ^ 2 * (u * u) :=
          mul_le_mul_of_nonneg_right h8 huupos.le
  apply key
  split_ifs with c1 c2 c3
  · exact Or.inl ⟨rfl, c1.le⟩
  · exact Or.inr ⟨by push_cast; rfl, c2.le⟩
  · exact Or.inl ⟨rfl, not_lt.1 c2⟩
  · exact Or.inr ⟨by push_cast; rfl, not_lt.1 c1⟩

theorem round32_near (q c : ℚ) (hc : (2 : ℚ) ^ (-126 : ℤ) ≤ c) (hq : q = 0 ∨ c ≤ q) :
    (round32 q = 0 ∨ c / 2 ≤ round32 q) ∧
      q * (1 - 1 / 2 ^ 24) ≤ round32 q ∧ round32 q ≤ q * (1 + 1 / 2 ^ 24) := by
  rcases hq with h | h
  · subst h
    simp [round32_zero]
  · have hcpos : 0 < c := lt_of_lt_of_le (two_zpow_pos _) hc
    have hpos : 0 < q := lt_of_lt_of_le hcpos h
    have h1 := round32_rel q (by rw [abs_of_pos hpos]; exact le_trans hc h)
    rw [abs_of_pos hpos, abs_le] at h1
    obtain ⟨h2, h3⟩ := h1
    refine ⟨Or.inr ?_, ?_, ?_⟩
    · have : q / 2 ^ 24 ≤ q / 2 := by
        apply div_le_div_of_nonneg_left hpos.le (by norm_num) (by norm_num)
      linarith
    · linarith
    · linarith

theorem scale_exact (a : ℤ) (h : isInt16 a) :
    fdiv (int_to_float a) 16384 = (a : ℚ) / 16384 := by
  obtain ⟨h1, h2⟩ := h
  have habs : |a| < 2 ^ 24 := by
    rw [abs_lt]
    constructor <;> omega
  have e0 := round32_exact a 0 habs (by norm_num)
  have e1 := round32_exact a (-14) habs (by norm_num)
  have h14 : (a : ℚ) * 2 ^ (-14 : ℤ) = (a : ℚ) / 16384 := by
    rw [zpow_neg, div_eq_mul_inv]
    norm_num
  rw [h14] at e1
  simp only [zpow_zero, mul_one] at e0
  unfold fdiv int_to_float
  rw [e0, e1]

theorem sq_scaled_cases (a : ℤ) :
    (a : ℚ) / 16384 * ((a : ℚ) / 16384) = 0 ∨
      (1 / 2 ^ 28 : ℚ) ≤ (a : ℚ) / 16384 * ((a : ℚ) / 16384) := by
  by_cases h : a = 0
  · left
    subst h
    simp
  · right
    have h1 : (1 : ℤ) ≤ a * a := by
      have := mul_self_pos.2 h
      omega
    have h2 : (1 : ℚ) ≤ (a : ℚ) * a := by exact_mod_cast h1
    have h3 : (a : ℚ) / 16384 * ((a : ℚ) / 16384) = (a : ℚ) * a / 2 ^ 28 := by
      field_simp
      norm_num
    rw [h3]
    exact div_le_div_of_nonneg_right h2 (by norm_num)

theorem add_near (a b c : ℚ) (hc : 0 ≤ c) (ha : a = 0 ∨ c ≤ a) (hb : b = 0 ∨ c ≤ b) :
    a + b = 0 ∨ c ≤ a + b := by
  rcases ha with ha | ha <;> rcases hb with hb | hb
  · left; rw [ha, hb]; norm_num
  · right; rw [ha]; linarith
  · right; rw [hb]; linarith
  · right; linarith

/-- Accumulated rounding error of the single-precision sum of squares. -/
theorem sumsq_bounds (x y z : ℚ)
    (hx : x * x = 0 ∨ (1 / 2 ^ 28 : ℚ) ≤ x * x)
    (hy : y * y = 0 ∨ (1 / 2 ^ 28 : ℚ) ≤ y * y)
    (hz : z * z = 0 ∨ (1 / 2 ^ 28 : ℚ) ≤ z * z) :
    (x * x + y * y + z * z) * (1 - 1 / 2 ^ 24) ^ 3
        ≤ fadd (fadd (fmul x x) (fmul y y)) (fmul z z) ∧
      fadd (fadd (fmul x x) (fmul y y)) (fmul z z)
        ≤ (x * x + y * y + z * z) * (1 + 1 / 2 ^ 24) ^ 3 := by
  have c28 : (2 : ℚ) ^ (-126 : ℤ) ≤ 1 / 2 ^ 28 := by
    rw [zpow_neg]
    norm_num
  have c29 : (2 : ℚ) ^ (-126 : ℤ) ≤ 1 / 2 ^ 28 / 2 := by
    rw [zpow_neg]
    norm_num
  have c30 : (2 : ℚ) ^ (-126 : ℤ) ≤ 1 / 2 ^ 28 / 2 / 2 := by
    rw [zpow_neg]
    norm_num
  have px : 0 ≤ x * x := mul_self_nonneg x
  have py : 0 ≤ y * y := mul_self_nonneg y
  have pz : 0 ≤ z * z := mul_self_nonneg z
  obtain ⟨nA, lA, uA⟩ := round32_near (x * x) _ c28 hx
  obtain ⟨nB, lB, uB⟩ := round32_near (y * y) _ c28 hy
  obtain ⟨nC, lC, uC⟩ := round32_near (z * z) _ c28 hz
  have nAB := add_near _ _ _ (by norm_num) nA nB
  obtain ⟨nD, lD, uD⟩ := round32_near (round32 (x * x) + round32 (y * y)) _ c29 nAB
  have nC' : round32 (z * z) = 0 ∨ 1 / 2 ^ 28 / 2 / 2 ≤ round32 (z * z) := by
    rcases nC with h | h
    · exact Or.inl h
    · right
      linarith
  have nDC := add_near _ _ _ (by norm_num) nD nC'
  obtain ⟨-, lS, uS⟩ := round32_near
    (round32 (round32 (x * x) + round32 (y * y)) + round32 (z * z)) _ c30 nDC
  unfold fadd fmul
  generalize round32 (round32 (round32 (x * x) + round32 (y * y)) + round32 (z * z)) = S at lS uS
  generalize round32 (round32 (x * x) + round32 (y * y)) = D at lD uD lS uS
  generalize round32 (x * x) = A at lA uA lD uD
  generalize round32 (y * y) = B at lB uB lD uD
  generalize round32 (z * z) = C at lC uC lS uS
  generalize x * x = P at px lA uA
  generalize y * y = Q at py lB uB
  generalize z * z = R at pz lC uC
  norm_num at lA uA lB uB lC uC lD uD lS uS ⊢
  constructor <;> linarith

theorem float_to_int_trunc (x : ℚ) :
    float_to_int x = if 0 ≤ x then ⌊x⌋ else ⌈x⌉ := by
  unfold float_to_int
  have hden : (0 : ℤ) ≤ (x.den : ℤ) := Int.natCast_nonneg _
  split_ifs with h
  · rw [Rat.floor_def]
    exact Int.tdiv_eq_ediv (Rat.num_nonneg.2 h) hden
  · have hneg : x < 0 := not_le.1 h
    have hnum : 0 ≤ -x.num := by
      have := Rat.num_neg.2 hneg
      omega
    have h1 : ⌈x⌉ = -⌊-x⌋ := by
      rw [Int.floor_neg, neg_neg]
    rw [h1, Rat.floor_def, Rat.neg_num, Rat.neg_den, ← Int.tdiv_eq_ediv hnum hden,
      Int.neg_tdiv, neg_neg]

theorem float_to_int_eval (x : ℚ) (n : ℤ) (h0 : 0 ≤ x) (h1 : (n : ℚ) ≤ x) (h2 : x < n + 1) :
    float_to_int x = n := by
  rw [float_to_int_trunc, if_pos h0, Int.floor_eq_iff]
  exact ⟨h1, h2⟩

theorem float_to_int_eval_neg (x : ℚ) (n : ℤ) (h0 : x < 0) (h1 : (n : ℚ) - 1 < x) (h2 : x ≤ n) :
    float_to_int x = n := by
  rw [float_to_int_trunc, if_neg (not_le.2 h0), Int.ceil_eq_iff]
  exact ⟨h1, h2⟩

theorem roundNE_eq_of_abs_lt (t : ℚ) (n : ℤ) (h1 : (n : ℚ) - 1 / 2 < t) (h2 : t < n + 1 / 2) :
    roundNE t = n := by
  by_cases hc : (n : ℚ) ≤ t
  · have hf : ⌊t⌋ = n := by
      rw [Int.floor_eq_iff]
      exact ⟨hc, by linarith⟩
    unfold roundNE
    simp only [hf]
    rw [if_pos (by linarith)]
  · have hlt : t < n := not_le.1 hc
    have hf : ⌊t⌋ = n - 1 := by
      rw [Int.floor_eq_iff]
      push_cast
      exact ⟨by linarith, by linarith⟩
    unfold roundNE
    simp only [hf]
    push_cast
    rw [if_neg (by linarith), if_pos (by linarith)]
    ring

theorem round32_eval (q : ℚ) (e n : ℤ) (he : -126 ≤ e) (hpos : 0 < q)
    (h1 : (2 : ℚ) ^ e ≤ q) (h2 : q < (2 : ℚ) ^ (e + 1))
    (h3 : (n : ℚ) - 1 / 2 < q / 2 ^ (e - 23)) (h4 : q / 2 ^ (e - 23) < n + 1 / 2) :
    round32 q = n * 2 ^ (e - 23) := by
  have hl : Int.log 2 |q| = e := by
    rw [abs_of_pos hpos]
    apply le_antisymm
    · have := log2_lt q hpos (e + 1) h2
      omega
    · exact le_log2 q hpos e h1
  unfold round32
  rw [if_neg hpos.ne']
  simp only [hl, max_eq_left he]
  rw [roundNE_eq_of_abs_lt _ n h3 h4]

theorem sqrtf_eval (q : ℚ) (e : ℤ) (k : ℕ) (hpos : 0 < q)
    (h1 : (2 : ℚ) ^ (2 * e) ≤ q) (h2 : q < (2 : ℚ) ^ (2 * e + 2))
    (hk1 : (k : ℚ) * k ≤ q / (2 ^ (e - 23) * 2 ^ (e - 23)))
    (hk2 : q / (2 ^ (e - 23) * 2 ^ (e - 23)) < (k : ℚ) * k + k + 1 / 4) :
    sqrtf q = k * 2 ^ (e - 23) := by
  have hl : Int.log 2 q / 2 = e := by
    have a1 := log2_lt q hpos (2 * e + 2) h2
    have a2 := le_log2 q hpos (2 * e) h1
    omega
  unfold sqrtf
  rw [if_neg (not_le.2 hpos)]
  simp only [hl]
  generalize q / (2 ^ (e - 23) * 2 ^ (e - 23)) = r at hk1 hk2
  have hr0 : 0 ≤ r := le_trans (mul_self_nonneg _) hk1
  have hs : Nat.sqrt ⌊r⌋₊ = k := by
    symm
    rw [Nat.eq_sqrt]
    constructor
    · apply Nat.le_floor
      push_cast
      exact hk1
    · rw [Nat.floor_lt hr0]
      push_cast
      have : (0 : ℚ) ≤ k := Nat.cast_nonneg k
      nlinarith
  rw [hs, if_pos hk2]

/-- Rounded-up variant of `sqrtf_eval`: the argument lies above `(k + 1/2)²`. -/
theorem sqrtf_eval_up (q : ℚ) (e : ℤ) (k : ℕ) (hpos : 0 < q)
    (h1 : (2 : ℚ) ^ (2 * e) ≤ q) (h2 : q < (2 : ℚ) ^ (2 * e + 2))
    (hk1 : (k : ℚ) * k + k + 1 / 4 < q / (2 ^ (e - 23) * 2 ^ (e - 23)))
    (hk2 : q / (2 ^ (e - 23) * 2 ^ (e - 23)) < ((k : ℚ) + 1) * (k + 1)) :
    sqrtf q = (k + 1 : ℕ) * 2 ^ (e - 23) := by
  have hl : Int.log 2 q / 2 = e := by
    have a1 := log2_lt q hpos (2 * e + 2) h2
    have a2 := le_log2 q hpos (2 * e) h1
    omega
  unfold sqrtf
  rw [if_neg (not_le.2 hpos)]
  simp only [hl]
  generalize q / (2 ^ (e - 23) * 2 ^ (e - 23)) = r at hk1 hk2
  have hk0 : (0 : ℚ) ≤ k := Nat.cast_nonneg k
  have hr0 : 0 ≤ r := by nlinarith
  have hs : Nat.sqrt ⌊r⌋₊ = k := by
    symm
    rw [Nat.eq_sqrt]
    constructor
    · apply Nat.le_floor
      push_cast
      nlinarith
    · rw [Nat.floor_lt hr0]
      push_cast
      exact hk2
  rw [hs, if_neg (not_lt.2 hk1.le), if_pos hk1]

theorem mag_above : accel_magnitude (accelerometer ⟨913, 24303, 3537⟩) = 12582913 / 8388608 := by
  have hx := scale_exact 913 (by unfold isInt16; decide)
  have hy := scale_exact 24303 (by unfold isInt16; decide)
  have hz := scale_exact 3537 (by unfold isInt16; decide)
  have px : fmul (913 / 16384) (913 / 16384) = 833569 / 2 ^ 28 := by
    have := round32_exact 833569 (-28) (by norm_num) (by norm_num)
    unfold fmul
    norm_num [zpow_neg] at this ⊢
    exact this
  have py : fmul (24303 / 16384) (24303 / 16384) = 590635840 / 2 ^ 28 := by
    unfold fmul
    have := round32_eval (24303 / 16384 * (24303 / 16384)) 1 9228685 (by norm_num) (by norm_num)
      (by norm_num) (by norm_num [zpow_ofNat]) (by norm_num [zpow_neg]) (by norm_num [zpow_neg])
    rw [this]
    norm_num [zpow_neg]
  have pz : fmul (3537 / 16384) (3537 / 16384) = 12510369 / 2 ^ 28 := by
    have := round32_exact 12510369 (-28) (by norm_num) (by norm_num)
    unfold fmul
    norm_num [zpow_neg] at this ⊢
    exact this
  have s1 : fadd (833569 / 2 ^ 28) (590635840 / 2 ^ 28) = 591469440 / 2 ^ 28 := by
    unfold fadd
    have := round32_eval (833569 / 2 ^ 28 + 590635840 / 2 ^ 28) 1 9241710 (by norm_num)
      (by norm_num) (by norm_num) (by norm_num [zpow_ofNat]) (by norm_num [zpow_neg])
      (by norm_num [zpow_neg])
    rw [this]
    norm_num [zpow_neg]
  have s2 : fadd (591469440 / 2 ^ 28) (12510369 / 2 ^ 28) = 603979840 / 2 ^ 28 := by
    unfold fadd
    have := round32_eval (591469440 / 2 ^ 28 + 12510369 / 2 ^ 28) 1 9437185 (by norm_num)
      (by norm_num) (by norm_num) (by norm_num [zpow_ofNat]) (by norm_num [zpow_neg])
      (by norm_num [zpow_neg])
    rw [this]
    norm_num [zpow_neg]
  have r : sqrtf (603979840 / 2 ^ 28) = 12582913 / 8388608 := by
    have := sqrtf_eval_up (603979840 / 2 ^ 28) 0 12582912 (by norm_num) (by norm_num)
      (by norm_num) (by norm_num [zpow_neg]) (by norm_num [zpow_neg])
    rw [this]
    norm_num [zpow_neg]
  unfold accel_magnitude accelerometer
  simp only [hx, hy, hz]
  norm_num
  norm_num at px py pz s1 s2 r
  rw [px, py, pz, s1, s2, r]

theorem normSq_cast (acc : RawAccel) :
    (acc.a0 : ℚ) / 16384 * ((acc.a0 : ℚ) / 16384) + (acc.a1 : ℚ) / 16384 * ((acc.a1 : ℚ) / 16384)
      + (acc.a2 : ℚ) / 16384 * ((acc.a2 : ℚ) / 16384) = (acc.normSq : ℚ) / 2 ^ 28 := by
  unfold RawAccel.normSq
  push_cast
  ring

theorem magnitude_arg_bounds (acc : RawAccel) (hwf : acc.wf) :
    ∃ s : ℚ, accel_magnitude (accelerometer acc) = sqrtf s ∧
      (acc.normSq : ℚ) / 2 ^ 28 * (1 - 1 / 2 ^ 24) ^ 3 ≤ s ∧
      s ≤ (acc.normSq : ℚ) / 2 ^ 28 * (1 + 1 / 2 ^ 24) ^ 3 := by
  obtain ⟨h0, h1, h2⟩ := hwf
  refine ⟨_, rfl, ?_⟩
  simp only [accelerometer, scale_exact _ h0, scale_exact _ h1, scale_exact _ h2]
  rw [← normSq_cast]
  exact sumsq_bounds _ _ _ (sq_scaled_cases _) (sq_scaled_cases _) (sq_scaled_cases _)

theorem click_of_far (acc : RawAccel) (hwf : acc.wf) (h : 603979776 + 256 ≤ acc.normSq) :
    threshold < accel_magnitude (accelerometer acc) := by
  obtain ⟨s, hs, lo, -⟩ := magnitude_arg_bounds acc hwf
  rw [hs]
  have hn : (603979776 + 256 : ℚ) ≤ (acc.normSq : ℚ) := by exact_mod_cast h
  have hs1 : (603980032 : ℚ) / 2 ^ 28 * (1 - 1 / 2 ^ 24) ^ 3 ≤ s := by
    refine le_trans ?_ lo
    apply mul_le_mul_of_nonneg_right _ (by norm_num)
    apply div_le_div_of_nonneg_right _ (by norm_num)
    linarith
  have hspos : 0 < s := lt_of_lt_of_le (by norm_num) hs1
  obtain ⟨fpos, -, hub⟩ := sqrtf_bracket s hspos
  unfold threshold
  by_contra hcon
  have hle : sqrtf s ≤ 3 / 2 := not_lt.1 hcon
  have h2 : (sqrtf s * (1 + 1 / 2 ^ 24)) ^ 2 ≤ (3 / 2 * (1 + 1 / 2 ^ 24)) ^ 2 := by
    apply pow_le_pow_left₀ (mul_nonneg fpos.le (by norm_num))
    exact mul_le_mul_of_nonneg_right hle (by norm_num)
  have h3 := le_trans hs1 (le_trans hub h2)
  norm_num at h3

theorem tilt_of_near (acc : RawAccel) (hwf : acc.wf) (h : acc.normSq ≤ 603979776 - 256) :
    ¬ threshold < accel_magnitude (accelerometer acc) := by
  obtain ⟨s, hs, -, hi⟩ := magnitude_arg_bounds acc hwf
  rw [hs]
  have hn : (acc.normSq : ℚ) ≤ (603979776 - 256 : ℚ) := by exact_mod_cast h
  have hs1 : s ≤ (603979520 : ℚ) / 2 ^ 28 * (1 + 1 / 2 ^ 24) ^ 3 := by
    refine le_trans hi ?_
    apply mul_le_mul_of_nonneg_right _ (by norm_num)
    apply div_le_div_of_nonneg_right _ (by norm_num)
    linarith
  unfold threshold
  intro hcon
  by_cases hs0 : s ≤ 0
  · have : sqrtf s = 0 := by
      unfold sqrtf
      rw [if_pos hs0]
    rw [this] at hcon
    norm_num at hcon
  · obtain ⟨fpos, hlb, -⟩ := sqrtf_bracket s (not_le.1 hs0)
    have h2 : (3 / 2 * (1 - 1 / 2 ^ 24)) ^ 2 ≤ (sqrtf s * (1 - 1 / 2 ^ 24)) ^ 2 := by
      apply pow_le_pow_left₀ (by norm_num)
      exact mul_le_mul_of_nonneg_right hcon.le (by norm_num)
    have h3 := le_trans h2 (le_trans hlb hs1)
    norm_num at h3

theorem mag_boundary : accel_magnitude (accelerometer ⟨24576, 1, 0⟩) = 3 / 2 := by
  have hx := scale_exact 24576 (by unfold isInt16; decide)
  have hy := scale_exact 1 (by unfold isInt16; decide)
  have hz := scale_exact 0 (by unfold isInt16; decide)
  have px : fmul (3 / 2) (3 / 2) = 9 / 4 := by
    have := round32_exact 9 (-2) (by norm_num) (by norm_num)
    unfold fmul
    norm_num [zpow_neg] at this ⊢
    exact this
  have py : fmul (1 / 16384) (1 / 16384) = 1 / 2 ^ 28 := by
    have := round32_exact 1 (-28) (by norm_num) (by norm_num)
    unfold fmul
    norm_num [zpow_neg] at this ⊢
    exact this
  have pz : fmul 0 0 = 0 := by
    unfold fmul
    norm_num [round32_zero]
  have s1 : fadd (9 / 4) (1 / 2 ^ 28) = 9 / 4 := by
    unfold fadd
    have := round32_eval (9 / 4 + 1 / 2 ^ 28) 1 9437184 (by norm_num) (by norm_num)
      (by norm_num) (by norm_num [zpow_ofNat]) (by norm_num [zpow_neg]) (by norm_num [zpow_neg])
    rw [this]
    norm_num [zpow_neg]
  have s2 : fadd (9 / 4) 0 = 9 / 4 := by
    have := round32_exact 9 (-2) (by norm_num) (by norm_num)
    unfold fadd
    norm_num [zpow_neg] at this ⊢
    exact this
  have r : sqrtf (9 / 4) = 3 / 2 := by
    have := sqrtf_eval (9 / 4) 0 12582912 (by norm_num) (by norm_num) (by norm_num)
      (by norm_num [zpow_neg]) (by norm_num [zpow_neg])
    rw [this]
    norm_num [zpow_neg]
  unfold accel_magnitude accelerometer
  simp only [hx, hy, hz]
  norm_num
  norm_num at px py pz s1 s2 r
  rw [px, py, pz, s1, s2, r]

/-! ## The iteration of `mpu6050_task` and the packet bytes -/

theorem normSqG_eq (acc : RawAccel) : acc.normSqG = (acc.normSq : ℚ) / 2 ^ 28 := by
  unfold RawAccel.normSqG RawAccel.normSq
  push_cast
  ring

theorem offers_click (acc : RawAccel) (euler : FusionEuler) (q : Queue)
    (h : threshold < accel_magnitude (accelerometer acc)) :
    mpu6050_offers acc euler q = [⟨2, 1⟩] := by
  unfold mpu6050_offers mpu6050_task
  simp only [if_pos h, List.map]

theorem offers_tilt (acc : RawAccel) (euler : FusionEuler) (q : Queue)
    (h : ¬ threshold < accel_magnitude (accelerometer acc)) :
    mpu6050_offers acc euler q
      = [⟨0, float_to_int euler.pitch⟩, ⟨1, float_to_int euler.roll⟩] := by
  unfold mpu6050_offers mpu6050_task
  simp only [if_neg h, List.map]

theorem offers_cases (acc : RawAccel) (euler : FusionEuler) (q : Queue) :
    mpu6050_offers acc euler q
        = [⟨0, float_to_int euler.pitch⟩, ⟨1, float_to_int euler.roll⟩] ∨
      mpu6050_offers acc euler q = [⟨2, 1⟩] := by
  by_cases h : threshold < accel_magnitude (accelerometer acc)
  · exact Or.inr (offers_click acc euler q h)
  · exact Or.inl (offers_tilt acc euler q h)

theorem mag_one_g : accel_magnitude (accelerometer ⟨0, 0, 16384⟩) = 1 := by
  have hx := scale_exact 0 (by unfold isInt16; decide)
  have hz := scale_exact 16384 (by unfold isInt16; decide)
  have p0 : fmul 0 0 = 0 := by
    unfold fmul
    norm_num [round32_zero]
  have p1 : fmul 1 1 = 1 := by
    have := round32_exact 1 0 (by norm_num) (by norm_num)
    unfold fmul
    norm_num at this ⊢
    exact this
  have s0 : fadd 0 0 = 0 := by
    unfold fadd
    norm_num [round32_zero]
  have s1 : fadd 0 1 = 1 := by
    have := round32_exact 1 0 (by norm_num) (by norm_num)
    unfold fadd
    norm_num at this ⊢
    exact this
  have r : sqrtf 1 = 1 := by
    have := sqrtf_eval 1 0 8388608 (by norm_num) (by norm_num) (by norm_num)
      (by norm_num [zpow_neg]) (by norm_num [zpow_neg])
    rw [this]
    norm_num [zpow_neg]
  unfold accel_magnitude accelerometer
  simp only [hx, hz]
  norm_num
  rw [p0, p1, s0, s1, r]

theorem mag_two_g : accel_magnitude (accelerometer ⟨-32768, 0, 0⟩) = 2 := by
  have hx := scale_exact (-32768) (by unfold isInt16; decide)
  have hz := scale_exact 0 (by unfold isInt16; decide)
  have p0 : fmul 0 0 = 0 := by
    unfold fmul
    norm_num [round32_zero]
  have p1 : fmul (-2) (-2) = 4 := by
    have := round32_exact 4 0 (by norm_num) (by norm_num)
    unfold fmul
    norm_num at this ⊢
    exact this
  have s1 : fadd 4 0 = 4 := by
    have := round32_exact 4 0 (by norm_num) (by norm_num)
    unfold fadd
    norm_num at this ⊢
    exact this
  have r : sqrtf 4 = 2 := by
    have := sqrtf_eval 4 1 8388608 (by norm_num) (by norm_num) (by norm_num)
      (by norm_num [zpow_neg]) (by norm_num [zpow_neg])
    rw [this]
    norm_num [zpow_neg]
  unfold accel_magnitude accelerometer
  simp only [hx, hz]
  norm_num
  rw [p0, p1, s1, s1, r]

theorem and255 (n : ℕ) : n &&& 255 = n % 256 := Nat.and_pow_two_sub_one_eq_mod n 8

theorem uart_bytes_eq (a v : ℤ) :
    uart_bytes ⟨a, v⟩ = [(a % 256).toNat, ((v / 256) % 256).toNat, (v % 256).toNat, 255] := by
  simp only [uart_bytes, to_uint8, int_shr, int_and, wrap_int, Int.shiftRight_eq_div_pow, and255]
  have h3 : ((255 : ℤ) % 4294967296).toNat = 255 := by decide
  rw [h3, and255]
  refine List.cons_eq_cons.2 ⟨rfl, List.cons_eq_cons.2 ⟨?_, List.cons_eq_cons.2 ⟨?_, rfl⟩⟩⟩
  · omega
  · omega

/-! ## Queue and scheduling lemmas -/

theorem send_full (q : Queue) (item : adc_t) (h : ¬ q.items.length < q.capacity) :
    xQueueSend q item = (false, q) := by
  unfold xQueueSend
  rw [if_neg h]

theorem send_free (q : Queue) (item : adc_t) (h : q.items.length < q.capacity) :
    xQueueSend q item = (true, { q with items := q.items ++ [item] }) := by
  unfold xQueueSend
  rw [if_pos h]

theorem send_capacity (q : Queue) (item : adc_t) :
    (xQueueSend q item).2.capacity = q.capacity := by
  unfold xQueueSend
  split_ifs <;> rfl

theorem send_length_le (q : Queue) (item : adc_t) (h : q.items.length ≤ q.capacity) :
    (xQueueSend q item).2.items.length ≤ q.capacity := by
  unfold xQueueSend
  split_ifs with h1
  · simp only [List.length_append, List.length_singleton]
    omega
  · exact h

theorem step_bounded (s : Sys) (a : Action) (h : s.queue.items.length ≤ s.queue.capacity) :
    (s.step a).queue.capacity = s.queue.capacity ∧
      (s.step a).queue.items.length ≤ s.queue.capacity := by
  cases a with
  | send item =>
    exact ⟨send_capacity s.queue item, send_length_le s.queue item h⟩
  | receive =>
    unfold Sys.step uart_task xQueueReceive
    cases hq : s.queue.items with
    | nil =>
      simp only [hq]
      exact ⟨trivial, by rw [hq] at h; exact h⟩
    | cons d rest =>
      simp only [hq]
      refine ⟨trivial, ?_⟩
      rw [hq] at h
      simp only [List.length_cons] at h
      omega

theorem run_bounded (acts : List Action) (s : Sys)
    (h : s.queue.items.length ≤ s.queue.capacity) :
    (s.run acts).queue.capacity = s.queue.capacity ∧
      (s.run acts).queue.items.length ≤ s.queue.capacity := by
  induction acts generalizing s with
  | nil => exact ⟨rfl, h⟩
  | cons a rest ih =>
    obtain ⟨h1, h2⟩ := step_bounded s a h
    have := ih (s.step a) (by rw [h1]; exact h2)
    rw [h1] at this
    exact this

/-- Relation between the three components of a state: the bytes on the wire are
the packets of the first `n` accepted items, in acceptance order, and the queue
holds the remaining accepted items, in the same order. -/
theorem step_fifo (s : Sys) (a : Action) (n : ℕ) (hn : n ≤ s.accepted.length)
    (hw : s.uart0 = (s.accepted.take n).flatMap uart_bytes)
    (hq : s.queue.items = s.accepted.drop n) :
    ∃ m, m ≤ (s.step a).accepted.length ∧
      (s.step a).uart0 = ((s.step a).accepted.take m).flatMap uart_bytes ∧
      (s.step a).queue.items = (s.step a).accepted.drop m := by
  cases a with
  | send item =>
    unfold Sys.step xQueueSend
    by_cases hc : s.queue.items.length < s.queue.capacity
    · simp only [if_pos hc, if_true]
      refine ⟨n, ?_, ?_, ?_⟩
      · simp only [List.length_append, List.length_singleton]
        omega
      · rw [List.take_append_of_le_length hn]
        exact hw
      · rw [List.drop_append_of_le_length hn, hq]
    · simp only [if_neg hc]
      exact ⟨n, hn, hw, hq⟩
  | receive =>
    unfold Sys.step uart_task xQueueReceive
    cases hi : s.queue.items with
    | nil =>
      simp only [hi]
      exact ⟨n, hn, hw, by rw [← hq, hi]⟩
    | cons d rest =>
      simp only [hi]
      rw [hi] at hq
      have hlt : n < s.accepted.length := by
        by_contra hge
        rw [List.drop_eq_nil_of_le (not_lt.1 hge)] at hq
        exact List.cons_ne_nil _ _ hq
      have hd : s.accepted.drop n = s.accepted[n] :: s.accepted.drop (n + 1) :=
        List.drop_eq_getElem_cons hlt
      rw [hd] at hq
      obtain ⟨h1, h2⟩ := List.cons_eq_cons.1 hq
      refine ⟨n + 1, hlt, ?_, h2⟩
      rw [List.take_succ, List.flatMap_append, ← hw, List.getElem?_eq_getElem hlt, h1]
      simp

theorem run_fifo (acts : List Action) (s : Sys) (n : ℕ) (hn : n ≤ s.accepted.length)
    (hw : s.uart0 = (s.accepted.take n).flatMap uart_bytes)
    (hq : s.queue.items = s.accepted.drop n) :
    ∃ m, m ≤ (s.run acts).accepted.length ∧
      (s.run acts).uart0 = ((s.run acts).accepted.take m).flatMap uart_bytes ∧
      (s.run acts).queue.items = (s.run acts).accepted.drop m := by
  induction acts generalizing s n with
  | nil => exact ⟨n, hn, hw, hq⟩
  | cons a rest ih =>
    obtain ⟨m, h1, h2, h3⟩ := step_fifo s a n hn hw hq
    exact ih (s.step a) m h1 h2 h3

theorem task_click (acc : RawAccel) (euler : FusionEuler) (q : Queue)
    (h : threshold < accel_magnitude (accelerometer acc)) :
    mpu6050_task acc euler q
      = ((xQueueSend q ⟨2, 1⟩).2, [(⟨2, 1⟩, (xQueueSend q ⟨2, 1⟩).1)]) := by
  unfold mpu6050_task
  simp only [if_pos h]

theorem task_tilt (acc : RawAccel) (euler : FusionEuler) (q : Queue)
    (h : ¬ threshold < accel_magnitude (accelerometer acc)) :
    mpu6050_task acc euler q
      = ((xQueueSend (xQueueSend q ⟨0, float_to_int euler.pitch⟩).2
            ⟨1, float_to_int euler.roll⟩).2,
          [(⟨0, float_to_int euler.pitch⟩, (xQueueSend q ⟨0, float_to_int euler.pitch⟩).1),
           (⟨1, float_to_int euler.roll⟩,
              (xQueueSend (xQueueSend q ⟨0, float_to_int euler.pitch⟩).2
                ⟨1, float_to_int euler.roll⟩).1)]) := by
  unfold mpu6050_task
  simp only [if_neg h]

theorem not_click_one_g : ¬ threshold < accel_magnitude (accelerometer ⟨0, 0, 16384⟩) := by
  rw [mag_one_g]
  norm_num [threshold]

theorem uart_task_cons (c : ℕ) (d : adc_t) (rest : List adc_t) (out : List ℕ) :
    uart_task ⟨c, d :: rest⟩ out = some (⟨c, rest⟩, out ++ uart_bytes d) := rfl

theorem uart_task_nil (c : ℕ) (out : List ℕ) : uart_task ⟨c, []⟩ out = none := rfl

/-- Both sends of an iteration succeeding means a tilt iteration that found
room for two items. -/
theorem both_sent (acc : RawAccel) (euler : FusionEuler) (q : Queue)
    (h : (mpu6050_task acc euler q).2.map Prod.snd = [true, true]) :
    ¬ threshold < accel_magnitude (accelerometer acc) ∧ q.items.length + 1 < q.capacity := by
  by_cases hc : threshold < accel_magnitude (accelerometer acc)
  · rw [task_click acc euler q hc] at h
    simp at h
  · refine ⟨hc, ?_⟩
    rw [task_tilt acc euler q hc] at h
    simp only [List.map, List.cons.injEq, and_true] at h
    obtain ⟨h1, h2⟩ := h
    by_cases hf : q.items.length < q.capacity
    · rw [send_free q _ hf] at h2
      by_contra hn
      rw [send_full _ _ (by simp only [List.length_append, List.length_singleton]; omega)] at h2
      simp at h2
    · rw [send_full q _ hf] at h1
      simp at h1

/-! ## The claims -/

/-- C1: every iteration of `mpu6050_task` hands to the queue either exactly the
two tilt items, axis 0 (pitch) then axis 1 (roll), or exactly the one click item
(axis 2, value 1); the list is never empty, never longer than two, and never
holds a tilt item together with a click item. -/
theorem C1_two_tilts_or_one_click (acc : RawAccel) (euler : FusionEuler) (q : Queue) :
    (mpu6050_offers acc euler q
        = [⟨0, float_to_int euler.pitch⟩, ⟨1, float_to_int euler.roll⟩] ∨
      mpu6050_offers acc euler q = [⟨2, 1⟩]) ∧
    1 ≤ (mpu6050_offers acc euler q).length ∧
    (mpu6050_offers acc euler q).length ≤ 2 ∧
    ¬ ((∃ e ∈ mpu6050_offers acc euler q, e.axis = 2) ∧
        (∃ e ∈ mpu6050_offers acc euler q, e.axis = 0 ∨ e.axis = 1)) := by
  by_cases h : threshold < accel_magnitude (accelerometer acc)
  · rw [offers_click acc euler q h]
    refine ⟨Or.inr rfl, by simp, by simp, ?_⟩
    rintro ⟨-, e, he, h01⟩
    simp only [List.mem_singleton] at he
    subst he
    rcases h01 with h0 | h1
    · exact absurd h0 (by decide)
    · exact absurd h1 (by decide)
  · rw [offers_tilt acc euler q h]
    refine ⟨Or.inl rfl, by simp, by simp, ?_⟩
    rintro ⟨⟨e, he, h2⟩, -⟩
    simp only [List.mem_cons, List.mem_singleton, List.not_mem_nil, or_false] at he
    rcases he with he | he <;> subst he <;> simp at h2

/-- C2 (as stated) fails in both directions next to the boundary: the raw vector
`(24576, 1, 0)` has Euclidean norm above 1.5 g, yet the single-precision
magnitude is exactly `1.5f` and the iteration hands over the two tilt items;
the raw vector `(913, 24303, 3537)` has norm below 1.5 g, yet the rounded
magnitude is `1.5f + 2⁻²³` and the iteration hands over the click item. -/
theorem C2_counterexample :
    ((⟨24576, 1, 0⟩ : RawAccel).wf ∧
      (3 / 2 : ℚ) ^ 2 < (⟨24576, 1, 0⟩ : RawAccel).normSqG ∧
      mpu6050_offers ⟨24576, 1, 0⟩ ⟨0, 0⟩ xQueueData = [⟨0, 0⟩, ⟨1, 0⟩]) ∧
    ((⟨913, 24303, 3537⟩ : RawAccel).wf ∧
      (⟨913, 24303, 3537⟩ : RawAccel).normSqG ≤ (3 / 2 : ℚ) ^ 2 ∧
      mpu6050_offers ⟨913, 24303, 3537⟩ ⟨0, 0⟩ xQueueData = [⟨2, 1⟩]) := by
  have f0 : float_to_int 0 = 0 := by
    unfold float_to_int
    simp
  refine ⟨⟨?_, ?_, ?_⟩, ?_, ?_, ?_⟩
  · unfold RawAccel.wf isInt16
    decide
  · norm_num [RawAccel.normSqG]
  · rw [offers_tilt _ _ _ (by rw [mag_boundary]; norm_num [threshold])]
    simp only [f0]
  · unfold RawAccel.wf isInt16
    decide
  · norm_num [RawAccel.normSqG]
  · exact offers_click _ _ _ (by rw [mag_above]; norm_num [threshold])

/-- C2 (amended): the iteration hands over the click item exactly when the
single-precision value `accel_magnitude` exceeds `1.5f`, and the two tilt items
otherwise.  For every `int16_t` raw vector whose exact squared norm is at least
`1.5² + 2⁻²⁰` g² the outcome is the click item whatever pitch and roll are; for
every raw vector whose exact squared norm is at most `1.5² − 2⁻²⁰` g² the
outcome is the two tilt items. -/
theorem C2_click_outside_rounding_band (acc : RawAccel) (euler : FusionEuler) (q : Queue)
    (hwf : acc.wf) :
    (mpu6050_offers acc euler q = [⟨2, 1⟩]
        ↔ threshold < accel_magnitude (accelerometer acc)) ∧
    (mpu6050_offers acc euler q
        = [⟨0, float_to_int euler.pitch⟩, ⟨1, float_to_int euler.roll⟩]
        ↔ ¬ threshold < accel_magnitude (accelerometer acc)) ∧
    ((3 / 2 : ℚ) ^ 2 + 1 / 2 ^ 20 ≤ acc.normSqG →
        mpu6050_offers acc euler q = [⟨2, 1⟩]) ∧
    (acc.normSqG ≤ (3 / 2 : ℚ) ^ 2 - 1 / 2 ^ 20 →
        mpu6050_offers acc euler q
          = [⟨0, float_to_int euler.pitch⟩, ⟨1, float_to_int euler.roll⟩]) := by
  refine ⟨?_, ?_, ?_, ?_⟩
  · constructor
    · intro h
      by_contra hn
      rw [offers_tilt acc euler q hn] at h
      simp at h
    · exact offers_click acc euler q
  · constructor
    · intro h hn
      rw [offers_click acc euler q hn] at h
      simp at h
    · exact offers_tilt acc euler q
  · intro h
    apply offers_click
    apply click_of_far acc hwf
    rw [normSqG_eq] at h
    have h1 : ((603979776 + 256 : ℤ) : ℚ) ≤ (acc.normSq : ℚ) := by
      rw [le_div_iff₀ (by norm_num)] at h
      push_cast
      linarith
    exact_mod_cast h1
  · intro h
    apply offers_tilt
    apply tilt_of_near acc hwf
    rw [normSqG_eq] at h
    have h1 : (acc.normSq : ℚ) ≤ ((603979776 - 256 : ℤ) : ℚ) := by
      rw [div_le_iff₀ (by norm_num)] at h
      push_cast
      linarith
    exact_mod_cast h1

theorem C2_click_outside_rounding_band_witness :
    mpu6050_offers ⟨-32768, 0, 0⟩ ⟨0, 0⟩ xQueueData = [⟨2, 1⟩] ∧
    mpu6050_offers ⟨0, 0, 16384⟩ ⟨-1, 90⟩ xQueueData
      = [⟨0, float_to_int (-1)⟩, ⟨1, float_to_int 90⟩] :=
  ⟨(C2_click_outside_rounding_band ⟨-32768, 0, 0⟩ ⟨0, 0⟩ xQueueData
      (by unfold RawAccel.wf isInt16; decide)).2.2.1 (by norm_num [RawAccel.normSqG]),
   (C2_click_outside_rounding_band ⟨0, 0, 16384⟩ ⟨-1, 90⟩ xQueueData
      (by unfold RawAccel.wf isInt16; decide)).2.2.2 (by norm_num [RawAccel.normSqG])⟩

/-- C3: for a tilt item with axis `a ∈ {0, 1}` and any value `v` in the signed
16-bit range, `uart_task` builds exactly the four bytes
`[a, (v mod 65536) div 256, v mod 256, 0xFF]`: the payload is the big-endian
two's-complement representation of `v`. -/
theorem C3_tilt_packet_bytes (a v : ℤ) (ha : a = 0 ∨ a = 1) (hv : isInt16 v) :
    uart_bytes ⟨a, v⟩ = [a.toNat, ((v % 65536) / 256).toNat, (v % 256).toNat, 0xFF] := by
  obtain ⟨h1, h2⟩ := hv
  rw [uart_bytes_eq]
  refine List.cons_eq_cons.2 ⟨?_, List.cons_eq_cons.2 ⟨?_, rfl⟩⟩
  · rcases ha with h | h <;> subst h <;> decide
  · congr 1
    omega

theorem C3_tilt_packet_bytes_witness :
    uart_bytes ⟨1, -300⟩ = [1, 254, 212, 0xFF] :=
  C3_tilt_packet_bytes 1 (-300) (Or.inr rfl) (by unfold isInt16; decide)

/-- The magnitude test of the iteration fires for every `int16_t` raw vector
whose exact squared norm is at least `1.5² + 2⁻²⁰` g². -/
theorem click_of_band (acc : RawAccel) (hwf : acc.wf)
    (h : (3 / 2 : ℚ) ^ 2 + 1 / 2 ^ 20 ≤ acc.normSqG) :
    threshold < accel_magnitude (accelerometer acc) := by
  apply click_of_far acc hwf
  rw [normSqG_eq] at h
  have h1 : ((603979776 + 256 : ℤ) : ℚ) ≤ (acc.normSq : ℚ) := by
    rw [le_div_iff₀ (by norm_num)] at h
    push_cast
    linarith
  exact_mod_cast h1

/-- C4 (as stated) fails next to the threshold: the `int16_t` raw sample
`(24576, 1, 0)` has a scaled magnitude above 1.5 g, yet the iteration does not
hand over exactly one item (it hands over the two tilt items), so no click
packet is produced for it. -/
theorem C4_counterexample :
    (⟨24576, 1, 0⟩ : RawAccel).wf ∧
    (3 / 2 : ℚ) ^ 2 < (⟨24576, 1, 0⟩ : RawAccel).normSqG ∧
    mpu6050_offers ⟨24576, 1, 0⟩ ⟨0, 0⟩ xQueueData
      = [⟨0, float_to_int 0⟩, ⟨1, float_to_int 0⟩] ∧
    ¬ ∃ e, mpu6050_offers ⟨24576, 1, 0⟩ ⟨0, 0⟩ xQueueData = [e] := by
  have ht : mpu6050_offers ⟨24576, 1, 0⟩ ⟨0, 0⟩ xQueueData
      = [⟨0, float_to_int 0⟩, ⟨1, float_to_int 0⟩] :=
    offers_tilt _ _ _ (by rw [mag_boundary]; norm_num [threshold])
  refine ⟨?_, ?_, ht, ?_⟩
  · unfold RawAccel.wf isInt16
    decide
  · norm_num [RawAccel.normSqG]
  · rintro ⟨e, he⟩
    rw [ht] at he
    simp at he

/-- C4 (amended): for every `int16_t` raw sample whose exact squared scaled
magnitude is at least `1.5² + 2⁻²⁰` g² (a magnitude of 2.0 g for example), the
single-precision test of the iteration fires, the iteration hands over exactly
one item, the click item (axis 2, value 1), and `uart_task` turns that item into
the bytes `[2, 0x00, 0x01, 0xFF]`. -/
theorem C4_click_packet_outside_band (acc : RawAccel) (euler : FusionEuler) (q : Queue)
    (hwf : acc.wf) (h : (3 / 2 : ℚ) ^ 2 + 1 / 2 ^ 20 ≤ acc.normSqG) :
    threshold < accel_magnitude (accelerometer acc) ∧
    ∃ e, mpu6050_offers acc euler q = [e] ∧ e = ⟨2, 1⟩ ∧
      uart_bytes e = [2, 0x00, 0x01, 0xFF] := by
  have hc := click_of_band acc hwf h
  exact ⟨hc, ⟨2, 1⟩, offers_click acc euler q hc, rfl, by decide⟩

theorem C4_click_packet_outside_band_witness :
    (⟨-32768, 0, 0⟩ : RawAccel).normSqG = 2 ^ 2 ∧
    accel_magnitude (accelerometer ⟨-32768, 0, 0⟩) = 2 ∧
    ∃ e, mpu6050_offers ⟨-32768, 0, 0⟩ ⟨30, -45⟩ xQueueData = [e] ∧ e = ⟨2, 1⟩ ∧
      uart_bytes e = [2, 0x00, 0x01, 0xFF] :=
  ⟨by norm_num [RawAccel.normSqG], mag_two_g,
   (C4_click_packet_outside_band ⟨-32768, 0, 0⟩ ⟨30, -45⟩ xQueueData
      (by unfold RawAccel.wf isInt16; decide) (by norm_num [RawAccel.normSqG])).2⟩

theorem decode_bytes (a v : ℤ) (hv : isInt16 v) :
    ∃ b0 hi lo, uart_bytes ⟨a, v⟩ = [b0, hi, lo, 0xFF] ∧ decode_be16 hi lo = v := by
  obtain ⟨h1, h2⟩ := hv
  refine ⟨_, _, _, uart_bytes_eq a v, ?_⟩
  unfold decode_be16
  simp only
  have e1 : ((((v / 256) % 256).toNat : ℕ) : ℤ) = (v / 256) % 256 :=
    Int.toNat_of_nonneg (Int.emod_nonneg _ (by norm_num))
  have e2 : (((v % 256).toNat : ℕ) : ℤ) = v % 256 :=
    Int.toNat_of_nonneg (Int.emod_nonneg _ (by norm_num))
  rw [e1, e2]
  split_ifs <;> omega

/-- C5: for every angle `x` whose truncation fits a signed 16-bit integer, the
value stored by the `float`-to-`int` conversion, encoded by `uart_task` and
decoded from bytes 1 and 2 as a big-endian signed 16-bit integer, is the
integer part of `x` with the fraction discarded (toward zero, not rounded). -/
theorem C5_tilt_round_trip (a : ℤ) (x : ℚ) (hfit : isInt16 (float_to_int x)) :
    ∃ b0 hi lo, uart_bytes ⟨a, float_to_int x⟩ = [b0, hi, lo, 0xFF] ∧
      decode_be16 hi lo = (if 0 ≤ x then ⌊x⌋ else ⌈x⌉) := by
  obtain ⟨b0, hi, lo, hb, hd⟩ := decode_bytes a (float_to_int x) hfit
  exact ⟨b0, hi, lo, hb, by rw [hd, float_to_int_trunc]⟩

theorem C5_tilt_round_trip_witness :
    float_to_int (127 / 10) = 12 ∧
    float_to_int (13316915 / 1048576) = 12 ∧
    uart_bytes ⟨0, 12⟩ = [0, 0, 12, 0xFF] ∧
    decode_be16 0 12 = 12 ∧
    ∃ b0 hi lo, uart_bytes ⟨0, float_to_int (127 / 10)⟩ = [b0, hi, lo, 0xFF] ∧
      decode_be16 hi lo = (if (0 : ℚ) ≤ 127 / 10 then ⌊(127 / 10 : ℚ)⌋ else ⌈(127 / 10 : ℚ)⌉) :=
  ⟨float_to_int_eval (127 / 10) 12 (by norm_num) (by norm_num) (by norm_num),
   float_to_int_eval (13316915 / 1048576) 12 (by norm_num) (by norm_num) (by norm_num),
   by decide, by decide,
   C5_tilt_round_trip 0 (127 / 10)
    (by rw [float_to_int_eval (127 / 10) 12 (by norm_num) (by norm_num) (by norm_num)]
        unfold isInt16
        decide)⟩

/-- C6: the queue is created with capacity 2 and `xQueueSend` is called with a
zero timeout; on a queue holding two items a further send returns failure and
leaves the queue as it was (same two items, same order, size 2); in every
state reachable from the one set up by `main` the queue holds at most two
items. -/
theorem C6_drop_on_full :
    xQueueData.capacity = 2 ∧ xQueueData.items = [] ∧
    (∀ (e1 e2 item : adc_t),
      xQueueSend ⟨2, [e1, e2]⟩ item = (false, ⟨2, [e1, e2]⟩) ∧
      (xQueueSend ⟨2, [e1, e2]⟩ item).2.items.length = 2) ∧
    (∀ acts : List Action, (Sys.init.run acts).queue.items.length ≤ 2) := by
  refine ⟨rfl, rfl, ?_, ?_⟩
  · intro e1 e2 item
    have h := send_full ⟨2, [e1, e2]⟩ item (by simp)
    exact ⟨h, by rw [h]; rfl⟩
  · intro acts
    exact (run_bounded acts Sys.init (by decide)).2

/-- C7: in every run of the two tasks from the state set up by `main`, the bytes
written to `uart0` are the packets of the first `n` successfully enqueued items,
in the order they were enqueued, and the queue holds the later ones in that
order, so an item enqueued earlier is transmitted earlier.  In an iteration
whose two sends both succeed the pitch item is queued ahead of the roll item,
and with the capacity-2 queue `uart_task` transmits the pitch packet (axis byte
0) and then the roll packet (axis byte 1). -/
theorem C7_fifo_preservation :
    (∀ acts : List Action, ∃ n, n ≤ (Sys.init.run acts).accepted.length ∧
      (Sys.init.run acts).uart0
        = ((Sys.init.run acts).accepted.take n).flatMap uart_bytes ∧
      (Sys.init.run acts).queue.items = (Sys.init.run acts).accepted.drop n) ∧
    (∀ (acc : RawAccel) (euler : FusionEuler) (q : Queue),
      (mpu6050_task acc euler q).2.map Prod.snd = [true, true] →
      (mpu6050_task acc euler q).1.items
        = q.items ++ [⟨0, float_to_int euler.pitch⟩, ⟨1, float_to_int euler.roll⟩] ∧
      (uart_bytes ⟨0, float_to_int euler.pitch⟩).head? = some 0 ∧
      (uart_bytes ⟨1, float_to_int euler.roll⟩).head? = some 1 ∧
      (q.capacity = 2 → ∀ out : List ℕ, ∃ q1 q2,
        uart_task (mpu6050_task acc euler q).1 out
          = some (q1, out ++ uart_bytes ⟨0, float_to_int euler.pitch⟩) ∧
        uart_task q1 (out ++ uart_bytes ⟨0, float_to_int euler.pitch⟩)
          = some (q2, out ++ uart_bytes ⟨0, float_to_int euler.pitch⟩
              ++ uart_bytes ⟨1, float_to_int euler.roll⟩))) := by
  refine ⟨fun acts => run_fifo acts Sys.init 0 (Nat.zero_le _) rfl rfl, ?_⟩
  intro acc euler q h
  obtain ⟨hc, hroom⟩ := both_sent acc euler q h
  have e1 := send_free q ⟨0, float_to_int euler.pitch⟩ (by omega)
  have e2 := send_free { q with items := q.items ++ [⟨0, float_to_int euler.pitch⟩] }
    ⟨1, float_to_int euler.roll⟩
    (by simp only [List.length_append, List.length_singleton]; omega)
  have ht : (mpu6050_task acc euler q).1
      = ⟨q.capacity, q.items ++ [⟨0, float_to_int euler.pitch⟩, ⟨1, float_to_int euler.roll⟩]⟩ := by
    rw [task_tilt acc euler q hc, e1]
    simp only
    rw [e2]
    simp
  refine ⟨by rw [ht], by rw [uart_bytes_eq]; rfl, by rw [uart_bytes_eq]; rfl, ?_⟩
  intro hcap out
  have hnil : q.items = [] := by
    rw [hcap] at hroom
    exact List.length_eq_zero.1 (by omega)
  rw [ht, hnil]
  exact ⟨⟨q.capacity, [⟨1, float_to_int euler.roll⟩]⟩, ⟨q.capacity, []⟩, rfl, rfl⟩

theorem C7_fifo_preservation_witness :
    (mpu6050_task ⟨0, 0, 16384⟩ ⟨-1, 90⟩ xQueueData).1.items
      = xQueueData.items ++ [⟨0, float_to_int (-1)⟩, ⟨1, float_to_int 90⟩] :=
  (C7_fifo_preservation.2 ⟨0, 0, 16384⟩ ⟨-1, 90⟩ xQueueData
    (by rw [task_tilt _ _ _ not_click_one_g]; rfl)).1

/-- C8: with the raw acceleration `(0, 0, 16384)` the scaled magnitude is exactly
1 g, which does not exceed the threshold; for an orientation whose pitch and
roll truncate to 0 the iteration enqueues the items (0, 0) and (1, 0) in that
order into the empty capacity-2 queue, and two iterations of `uart_task` write
`[0,0,0,0xFF]` and then `[1,0,0,0xFF]`. -/
theorem C8_upright_end_to_end (euler : FusionEuler)
    (hp : float_to_int euler.pitch = 0) (hr : float_to_int euler.roll = 0) :
    accel_magnitude (accelerometer ⟨0, 0, 16384⟩) = 1 ∧
    mpu6050_task ⟨0, 0, 16384⟩ euler xQueueData
      = (⟨2, [⟨0, 0⟩, ⟨1, 0⟩]⟩, [(⟨0, 0⟩, true), (⟨1, 0⟩, true)]) ∧
    uart_task ⟨2, [⟨0, 0⟩, ⟨1, 0⟩]⟩ [] = some (⟨2, [⟨1, 0⟩]⟩, [0, 0, 0, 0xFF]) ∧
    uart_task ⟨2, [⟨1, 0⟩]⟩ [0, 0, 0, 0xFF]
      = some (⟨2, []⟩, [0, 0, 0, 0xFF, 1, 0, 0, 0xFF]) ∧
    (Sys.init.run ((mpu6050_offers ⟨0, 0, 16384⟩ euler xQueueData).map Action.send
        ++ [Action.receive, Action.receive])).uart0 = [0, 0, 0, 0xFF, 1, 0, 0, 0xFF] := by
  refine ⟨mag_one_g, ?_, by decide, by decide, ?_⟩
  · rw [task_tilt _ _ _ not_click_one_g, hp, hr]
    rfl
  · rw [offers_tilt _ _ _ not_click_one_g, hp, hr]
    decide

theorem C8_upright_end_to_end_witness :
    (Sys.init.run ((mpu6050_offers ⟨0, 0, 16384⟩ ⟨1 / 2, -1 / 4⟩ xQueueData).map Action.send
        ++ [Action.receive, Action.receive])).uart0 = [0, 0, 0, 0xFF, 1, 0, 0, 0xFF] :=
  (C8_upright_end_to_end ⟨1 / 2, -1 / 4⟩
    (float_to_int_eval (1 / 2) 0 (by norm_num) (by norm_num) (by norm_num))
    (float_to_int_eval_neg (-1 / 4) 0 (by norm_num) (by norm_num) (by norm_num))).2.2.2.2

/-- C9: the classifier can produce a tilt item whose packet carries `0xFF` in a
payload position (a pitch truncating to -1 gives `[0, 0xFF, 0xFF, 0xFF]`, a roll
truncating to 255 gives `[1, 0x00, 0xFF, 0xFF]`), so `0xFF` is not confined to
the last byte of a frame; the axis byte of every item an iteration hands over is
0, 1 or 2 and never `0xFF`. -/
theorem C9_sentinel_collision :
    (∃ (acc : RawAccel) (euler : FusionEuler) (q : Queue) (e : adc_t),
      acc.wf ∧ e ∈ mpu6050_offers acc euler q ∧ e.axis = 0 ∧
        uart_bytes e = [0, 0xFF, 0xFF, 0xFF]) ∧
    (∃ (acc : RawAccel) (euler : FusionEuler) (q : Queue) (e : adc_t),
      acc.wf ∧ e ∈ mpu6050_offers acc euler q ∧ e.axis = 1 ∧
        uart_bytes e = [1, 0x00, 0xFF, 0xFF]) ∧
    (∀ (acc : RawAccel) (euler : FusionEuler) (q : Queue) (e : adc_t),
      e ∈ mpu6050_offers acc euler q →
      ∃ b0 b1 b2 b3, uart_bytes e = [b0, b1, b2, b3] ∧
        (b0 = 0 ∨ b0 = 1 ∨ b0 = 2) ∧ b0 ≠ 0xFF) := by
  have m1 : float_to_int (-1) = -1 :=
    float_to_int_eval_neg (-1) (-1) (by norm_num) (by norm_num) (by norm_num)
  have r255 : float_to_int 255 = 255 :=
    float_to_int_eval 255 255 (by norm_num) (by norm_num) (by norm_num)
  have hwf : (⟨0, 0, 16384⟩ : RawAccel).wf := by
    unfold RawAccel.wf isInt16
    decide
  refine ⟨⟨⟨0, 0, 16384⟩, ⟨-1, 0⟩, xQueueData, ⟨0, -1⟩, hwf, ?_, rfl, by decide⟩,
    ⟨⟨0, 0, 16384⟩, ⟨0, 255⟩, xQueueData, ⟨1, 255⟩, hwf, ?_, rfl, by decide⟩, ?_⟩
  · rw [offers_tilt _ _ _ not_click_one_g]
    simp only [m1]
    exact List.mem_cons_self _ _
  · rw [offers_tilt _ _ _ not_click_one_g]
    simp only [r255]
    exact List.mem_cons_of_mem _ (List.mem_cons_self _ _)
  · intro acc euler q e he
    rcases offers_cases acc euler q with h | h
    · rw [h] at he
      simp only [List.mem_cons, List.mem_singleton, List.not_mem_nil, or_false] at he
      rcases he with he | he <;> subst he <;> rw [uart_bytes_eq]
      · exact ⟨_, _, _, _, rfl, Or.inl rfl, by decide⟩
      · exact ⟨_, _, _, _, rfl, Or.inr (Or.inl rfl), by decide⟩
    · rw [h] at he
      simp only [List.mem_singleton] at he
      subst he
      exact ⟨_, _, _, _, rfl, Or.inr (Or.inr rfl), by decide⟩

/-- C10: a tilt iteration that finds one item `E` in the capacity-2 queue, with
nothing dequeued meanwhile, enqueues the pitch item and loses the roll item,
leaving `[E, pitch]`; `uart_task` then transmits the packet of `E` and the pitch
packet and blocks, no roll packet of that iteration following.  An iteration
that finds the queue full enqueues nothing, a detected click included. -/
theorem C10_tilt_pair_split (acc : RawAccel) (euler : FusionEuler) (E E2 : adc_t) :
    (¬ threshold < accel_magnitude (accelerometer acc) →
      mpu6050_task acc euler ⟨2, [E]⟩
        = (⟨2, [E, ⟨0, float_to_int euler.pitch⟩]⟩,
            [(⟨0, float_to_int euler.pitch⟩, true), (⟨1, float_to_int euler.roll⟩, false)]) ∧
      ∀ out : List ℕ,
        uart_task ⟨2, [E, ⟨0, float_to_int euler.pitch⟩]⟩ out
          = some (⟨2, [⟨0, float_to_int euler.pitch⟩]⟩, out ++ uart_bytes E) ∧
        uart_task ⟨2, [⟨0, float_to_int euler.pitch⟩]⟩ (out ++ uart_bytes E)
          = some (⟨2, []⟩, out ++ uart_bytes E ++ uart_bytes ⟨0, float_to_int euler.pitch⟩) ∧
        uart_task ⟨2, []⟩
          (out ++ uart_bytes E ++ uart_bytes ⟨0, float_to_int euler.pitch⟩) = none) ∧
    ((mpu6050_task acc euler ⟨2, [E, E2]⟩).1 = ⟨2, [E, E2]⟩ ∧
      ∀ p ∈ (mpu6050_task acc euler ⟨2, [E, E2]⟩).2, p.2 = false) ∧
    (threshold < accel_magnitude (accelerometer acc) →
      mpu6050_task acc euler ⟨2, [E, E2]⟩ = (⟨2, [E, E2]⟩, [(⟨2, 1⟩, false)])) := by
  refine ⟨?_, ?_, ?_⟩
  · intro h
    refine ⟨?_, fun out => ⟨rfl, rfl, rfl⟩⟩
    rw [task_tilt acc euler _ h]
    rfl
  · by_cases h : threshold < accel_magnitude (accelerometer acc)
    · rw [task_click acc euler _ h]
      refine ⟨rfl, ?_⟩
      intro p hp
      simp only [List.mem_singleton] at hp
      subst hp
      rfl
    · rw [task_tilt acc euler _ h]
      refine ⟨rfl, ?_⟩
      intro p hp
      simp only [List.mem_cons, List.mem_singleton, List.not_mem_nil, or_false] at hp
      rcases hp with hp | hp <;> subst hp <;> rfl
  · intro h
    rw [task_click acc euler _ h]
    rfl

theorem C10_tilt_pair_split_witness :
    mpu6050_task ⟨0, 0, 16384⟩ ⟨1 / 2, -1 / 4⟩ ⟨2, [⟨2, 1⟩]⟩
      = (⟨2, [⟨2, 1⟩, ⟨0, float_to_int (1 / 2)⟩]⟩,
          [(⟨0, float_to_int (1 / 2)⟩, true), (⟨1, float_to_int (-1 / 4)⟩, false)]) ∧
    mpu6050_task ⟨-32768, 0, 0⟩ ⟨1 / 2, -1 / 4⟩ ⟨2, [⟨0, 3⟩, ⟨1, 4⟩]⟩
      = (⟨2, [⟨0, 3⟩, ⟨1, 4⟩]⟩, [(⟨2, 1⟩, false)]) :=
  ⟨((C10_tilt_pair_split ⟨0, 0, 16384⟩ ⟨1 / 2, -1 / 4⟩ ⟨2, 1⟩ ⟨2, 1⟩).1 not_click_one_g).1,
   (C10_tilt_pair_split ⟨-32768, 0, 0⟩ ⟨1 / 2, -1 / 4⟩ ⟨0, 3⟩ ⟨1, 4⟩).2.2
     (by rw [mag_two_g]; norm_num [threshold])⟩

end Mpu
